import Mathlib

/-!
# Verification of the SVAD streaming chunk-energy matcher

Shallow embedding of the core of `svad.py` (class `SVAD`): the sample
converter (`convert_samples`), the registry-threshold state
(`max_chunks` / `max_chunks_pls` / `max_chunks_mns`), the streaming
window maintained by the `run` loop, and the matcher (`compare_data`).

Energies and margins are modelled as rationals (the Python code uses
floating point; every property below is about exact arithmetic
relationships, not rounding).
-/

namespace SVAD

/-- The per-chunk record built in `convert_samples` (the `chunk_data`
dict): the chunk energy `sum`, and the tolerance band bounds
`pls = sum + sum*margin/100`, `mns = sum - sum*margin/100`. -/
structure Band where
  sum : ℚ
  pls : ℚ
  mns : ℚ
deriving Repr, DecidableEq

/-- Build one `chunk_data` record from a chunk energy, as in
`convert_samples` lines 346-351:
`chunk_five = chunk_sum * error_margin / 100`,
`pls = chunk_sum + chunk_five`, `mns = chunk_sum - chunk_five`. -/
def mkBand (margin : ℚ) (chunk_sum : ℚ) : Band :=
  let chunk_five := chunk_sum * margin / 100
  { sum := chunk_sum, pls := chunk_sum + chunk_five, mns := chunk_sum - chunk_five }

/-- The three registry-level scalars held on the `SVAD` instance:
`max_chunks`, `max_chunks_pls`, `max_chunks_mns`. -/
structure RegState where
  max_chunks : ℕ
  max_chunks_pls : ℚ
  max_chunks_mns : ℚ
deriving Repr, DecidableEq

/-- Initial values of the three scalars (class attributes, all zero). -/
def RegState.start : RegState := ⟨0, 0, 0⟩

/-- The registry-threshold update performed for one sample file in
`convert_samples` lines 322-326: only when `amount_of_chunks` strictly
exceeds the current `max_chunks` are all three scalars recomputed. -/
def addChunkCount (margin : ℚ) (st : RegState) (amount_of_chunks : ℕ) : RegState :=
  if amount_of_chunks > st.max_chunks then
    let max_chunks_five := (amount_of_chunks : ℚ) * margin / 100
    { max_chunks := amount_of_chunks,
      max_chunks_pls := (amount_of_chunks : ℚ) + max_chunks_five,
      max_chunks_mns := (amount_of_chunks : ℚ) - max_chunks_five }
  else st

/-- Folding the registry update over a list of chunk counts, starting
from the all-zero state (the pattern-addition order is the list order). -/
def addAll (margin : ℚ) (counts : List ℕ) : RegState :=
  counts.foldl (addChunkCount margin) RegState.start

/-- Sizes of the pieces produced by `numpy.array_split(xs, n)` on an
array of length `L`: `L % n` pieces of size `L / n + 1` followed by
`n - L % n` pieces of size `L / n`. -/
def splitSizes (L n : ℕ) : List ℕ :=
  List.replicate (L % n) (L / n + 1) ++ List.replicate (n - L % n) (L / n)

/-- Cut a list into consecutive pieces of the given sizes. -/
def splitBySizes : List ℚ → List ℕ → List (List ℚ)
  | _, [] => []
  | xs, s :: rest => xs.take s :: splitBySizes (xs.drop s) rest

/-- `numpy.array_split` as used in `convert_samples` line 328. -/
def array_split (xs : List ℚ) (n : ℕ) : List (List ℚ) :=
  splitBySizes xs (splitSizes xs.length n)

/-- Chunk energy: `chunk = np.abs(chunk); chunk_sum = np.sum(chunk)`
(`convert_samples` lines 340-343). -/
def chunk_sum (chunk : List ℚ) : ℚ := (chunk.map (fun x => |x|)).sum

/-- The per-chunk energies the converter derives from one sample file:
`array_split` into `n` pieces, then the absolute sum of each piece. -/
def chunk_energies (xs : List ℚ) (n : ℕ) : List ℚ :=
  (array_split xs n).map chunk_sum

/-- `convert_samples`: for each sample file (given as its decoded data
points), compute `amount_of_chunks = floor(len / buffer_size)`, update
the registry scalars, split into chunks and wrap each chunk energy in a
band.  The Python code stores the bands in an insertion-ordered dict
keyed by file name; the model keeps them as a list in load order.
There is no failure path: an empty file list simply leaves the stack
empty and the scalars at zero. -/
def convert_samples (margin : ℚ) (buffer_size : ℕ) (sample_files : List (List ℚ)) :
    List (List Band) × RegState :=
  sample_files.foldl
    (fun acc data_points =>
      let amount_of_chunks := data_points.length / buffer_size
      let st := addChunkCount margin acc.2 amount_of_chunks
      let chunks_data := (chunk_energies data_points amount_of_chunks).map (mkBand margin)
      (acc.1 ++ [chunks_data], st))
    ([], RegState.start)

/-- One step of the `run` loop's window maintenance (lines 223-236):
if the stack has reached `max_chunks` entries, `pop(0)` the oldest,
then append the new chunk energy.  (`pop(0)` presupposes a nonempty
stack, i.e. `max_chunks ≥ 1`, which every use below assumes.) -/
def push (max_chunks : ℕ) (stack : List ℚ) (v : ℚ) : List ℚ :=
  if max_chunks ≤ stack.length then stack.tail ++ [v] else stack ++ [v]

/-- Feeding a whole sequence of live chunk energies through the window. -/
def pushAll (max_chunks : ℕ) (stack : List ℚ) (vs : List ℚ) : List ℚ :=
  vs.foldl (push max_chunks) stack

/-- One comparison of the inner loop of `compare_data` (lines 267-275):
at index `i`, look up the sample band (`sample_data.get(i)`, `none` when
out of range) and the stream value; the Python guard
`if particular_sample_chunk_data and particular_stream_chunk_data`
passes only when the band dict is present (a present dict is nonempty,
hence truthy) and the stream float is nonzero; then test band
containment `mns <= value <= pls`. -/
def hitAt (sample_data : List Band) (stream : List ℚ) (i : ℕ) : Bool :=
  match sample_data[i]?, stream[i]? with
  | some b, some v => decide (v ≠ 0 ∧ b.mns ≤ v ∧ v ≤ b.pls)
  | _, _ => false

/-- The hit count accumulated by the inner loop of `compare_data`: the
loop runs `i = 0 .. len(stream_chunk_stack) - 1` and increments on each
passing comparison. -/
def chunk_match_hits (sample_data : List Band) (stream : List ℚ) : ℕ :=
  (List.range stream.length).countP (fun i => hitAt sample_data stream i)

/-- `compare_data` (lines 249-285).  The outer loop walks the sample
stack, but its body ends in `return True` / `return False`, so only the
first sample is ever examined; with an empty stack the function falls
off the loop and Python returns `None`. -/
def compare_data (samples_chunk_stack : List (List Band)) (st : RegState)
    (stream_chunk_stack : List ℚ) : Option Bool :=
  match samples_chunk_stack with
  | [] => none
  | sample_data :: _ =>
    let hits := chunk_match_hits sample_data stream_chunk_stack
    if st.max_chunks_mns ≤ (hits : ℚ) ∧ (hits : ℚ) ≤ st.max_chunks_pls then some true
    else some false

end SVAD

namespace SVAD

/-- The registry scalars derived from a single maximal chunk count `k`:
this is the shape the three scalars always have after the fold. -/
def canonState (margin : ℚ) (k : ℕ) : RegState :=
  ⟨k, (k : ℚ) + (k : ℚ) * margin / 100, (k : ℚ) - (k : ℚ) * margin / 100⟩

theorem canonState_zero (margin : ℚ) : canonState margin 0 = RegState.start := by
  simp [canonState, RegState.start]

theorem addChunkCount_canon (margin : ℚ) (k n : ℕ) :
    addChunkCount margin (canonState margin k) n = canonState margin (max k n) := by
  unfold addChunkCount canonState
  by_cases h : k < n
  · simp [h, max_eq_right (le_of_lt h)]
  · simp [h, max_eq_left (not_lt.mp h)]

theorem foldl_addChunkCount_canon (margin : ℚ) (counts : List ℕ) :
    ∀ k : ℕ, counts.foldl (addChunkCount margin) (canonState margin k)
      = canonState margin (counts.foldl max k) := by
  induction counts with
  | nil => intro k; rfl
  | cons n t ih =>
    intro k
    simp only [List.foldl_cons, addChunkCount_canon]
    exact ih (max k n)

/-- After adding any sequence of chunk counts, the three registry
scalars are exactly those derived from the running maximum. -/
theorem addAll_eq_canon (margin : ℚ) (counts : List ℕ) :
    addAll margin counts = canonState margin (counts.foldl max 0) := by
  have h := foldl_addChunkCount_canon margin counts 0
  rw [canonState_zero] at h
  exact h

/-- C5: For every chunk energy center ≥ 0 and margin in [0,100], the
constructed tolerance band satisfies lower ≤ center ≤ upper, with
lower = center*(1 - margin/100) and upper = center*(1 + margin/100);
and margin = 0 implies lower = center = upper. -/
theorem band_bounds (center margin : ℚ) (hc : 0 ≤ center)
    (hm0 : 0 ≤ margin) (hm1 : margin ≤ 100) :
    (mkBand margin center).mns ≤ center ∧ center ≤ (mkBand margin center).pls ∧
    (mkBand margin center).mns = center * (1 - margin / 100) ∧
    (mkBand margin center).pls = center * (1 + margin / 100) ∧
    (margin = 0 → (mkBand margin center).mns = center ∧ (mkBand margin center).pls = center) := by
  have hfive : 0 ≤ center * margin / 100 := by positivity
  refine ⟨?_, ?_, ?_, ?_, ?_⟩
  · simp only [mkBand]
    linarith
  · simp only [mkBand]
    linarith
  · simp only [mkBand]
    ring
  · simp only [mkBand]
    ring
  · intro h
    subst h
    simp only [mkBand]
    constructor <;> ring

/-- Witness for C5 at center = 10, margin = 50. -/
theorem band_bounds_witness :
    (mkBand 50 10).mns ≤ 10 ∧ (10 : ℚ) ≤ (mkBand 50 10).pls ∧
    (mkBand 50 10).mns = 10 * (1 - 50 / 100) ∧
    (mkBand 50 10).pls = 10 * (1 + 50 / 100) ∧
    ((50 : ℚ) = 0 → (mkBand 50 10).mns = 10 ∧ (mkBand 50 10).pls = 10) :=
  band_bounds 10 50 (by norm_num) (by norm_num) (by norm_num)

/-- C9 counterexample: loading an empty reference collection does not
fail at all — `convert_samples` completes and yields an empty sample
stack with all registry scalars still zero (there is no
`NoReferencesFound` error anywhere in the code). -/
theorem empty_collection_loads :
    convert_samples 50 1024 [] = ([], RegState.start) := rfl

/-- C9 amended: for every margin and buffer size, loading an empty
reference collection succeeds, producing an empty registry with
`max_chunks = 0` (no error is raised before live detection begins). -/
theorem empty_collection_loads_general (margin : ℚ) (buffer_size : ℕ) :
    convert_samples margin buffer_size [] = ([], RegState.start) := rfl

/-- C1: with at least one registered pattern and a saturated window,
`compare_data` returns the verdict of the first registered pattern
immediately: the remaining patterns are never compared (the result does
not depend on them), and the overall result is exactly the registry
threshold test applied to the first pattern's hit count. -/
theorem first_pattern_decides (sample_data : List Band) (rest : List (List Band))
    (st : RegState) (stream : List ℚ) (hsat : stream.length = st.max_chunks) :
    compare_data (sample_data :: rest) st stream
        = compare_data [sample_data] st stream ∧
    compare_data (sample_data :: rest) st stream
        = some (decide (st.max_chunks_mns ≤ (chunk_match_hits sample_data stream : ℚ) ∧
            (chunk_match_hits sample_data stream : ℚ) ≤ st.max_chunks_pls)) := by
  refine ⟨rfl, ?_⟩
  by_cases h : st.max_chunks_mns ≤ (chunk_match_hits sample_data stream : ℚ) ∧
      (chunk_match_hits sample_data stream : ℚ) ≤ st.max_chunks_pls
  · simp [compare_data, h]
  · simp [compare_data, h]

/-- Witness for C1: a two-pattern registry whose second pattern is
ignored by the matcher. -/
theorem first_pattern_decides_witness :
    compare_data ([mkBand 0 2] :: [[mkBand 0 5]]) ⟨1, 1, 1⟩ [2]
        = compare_data [[mkBand 0 2]] ⟨1, 1, 1⟩ [2] ∧
    compare_data ([mkBand 0 2] :: [[mkBand 0 5]]) ⟨1, 1, 1⟩ [2]
        = some (decide ((1 : ℚ) ≤ (chunk_match_hits [mkBand 0 2] [2] : ℚ) ∧
            (chunk_match_hits [mkBand 0 2] [2] : ℚ) ≤ (1 : ℚ))) :=
  first_pattern_decides [mkBand 0 2] [[mkBand 0 5]] ⟨1, 1, 1⟩ [2] rfl

/-- C2: with the registry scalars produced by adding the chunk counts
`counts` and a saturated window, the matcher's verdict for the first
pattern is `true` exactly when its hit count lies in the inclusive
interval `[M - M*margin/100, M + M*margin/100]`, where `M` is the
largest chunk count added so far. -/
theorem verdict_iff_hits_in_band (margin : ℚ) (counts : List ℕ)
    (sample_data : List Band) (rest : List (List Band)) (stream : List ℚ)
    (hsat : stream.length = (addAll margin counts).max_chunks) :
    (compare_data (sample_data :: rest) (addAll margin counts) stream = some true ↔
      (((counts.foldl max 0 : ℕ) : ℚ) - ((counts.foldl max 0 : ℕ) : ℚ) * margin / 100
          ≤ (chunk_match_hits sample_data stream : ℚ) ∧
        (chunk_match_hits sample_data stream : ℚ)
          ≤ ((counts.foldl max 0 : ℕ) : ℚ) + ((counts.foldl max 0 : ℕ) : ℚ) * margin / 100)) := by
  rw [addAll_eq_canon]
  simp only [compare_data, canonState]
  by_cases h : ((counts.foldl max 0 : ℕ) : ℚ) - ((counts.foldl max 0 : ℕ) : ℚ) * margin / 100
      ≤ (chunk_match_hits sample_data stream : ℚ) ∧
      (chunk_match_hits sample_data stream : ℚ)
      ≤ ((counts.foldl max 0 : ℕ) : ℚ) + ((counts.foldl max 0 : ℕ) : ℚ) * margin / 100
  · rw [if_pos h]
    exact iff_of_true rfl h
  · rw [if_neg h]
    exact iff_of_false (by simp) h

/-- Witness for C2: margin 50, one added pattern of 2 chunks, window
`[3, 3]` replayed against the pattern `[band 3, band 3]`. -/
theorem verdict_iff_hits_in_band_witness :
    (compare_data ([mkBand 50 3, mkBand 50 3] :: []) (addAll 50 [2]) [3, 3] = some true ↔
      (((([2] : List ℕ).foldl max 0 : ℕ) : ℚ) - ((([2] : List ℕ).foldl max 0 : ℕ) : ℚ) * 50 / 100
          ≤ (chunk_match_hits [mkBand 50 3, mkBand 50 3] [3, 3] : ℚ) ∧
        (chunk_match_hits [mkBand 50 3, mkBand 50 3] [3, 3] : ℚ)
          ≤ ((([2] : List ℕ).foldl max 0 : ℕ) : ℚ)
            + ((([2] : List ℕ).foldl max 0 : ℕ) : ℚ) * 50 / 100)) :=
  verdict_iff_hits_in_band 50 [2] [mkBand 50 3, mkBand 50 3] [] [3, 3] rfl

theorem foldl_max_perm {l l' : List ℕ} (h : l.Perm l') :
    ∀ a : ℕ, l.foldl max a = l'.foldl max a := by
  induction h with
  | nil => intro a; rfl
  | cons x _ ih =>
    intro a
    simp only [List.foldl_cons]
    exact ih (max a x)
  | swap x y l =>
    intro a
    simp only [List.foldl_cons]
    rw [Nat.max_right_comm]
  | trans _ _ ih1 ih2 =>
    intro a
    rw [ih1 a, ih2 a]

/-- C6: adding the patterns of a collection to the registry in any two
orders (in particular, in chunk-count-ascending order) yields the same
final `max_chunks`, `max_chunks_pls` (match ceiling) and
`max_chunks_mns` (match floor): the three scalars depend only on the
largest chunk count present. -/
theorem registry_order_independent (margin : ℚ) (counts counts2 : List ℕ)
    (h : counts.Perm counts2) :
    addAll margin counts = addAll margin counts2 := by
  rw [addAll_eq_canon, addAll_eq_canon, foldl_max_perm h 0]

/-- Witness for C6 at the insertion orders `[3, 1, 2]` and `[1, 2, 3]`. -/
theorem registry_order_independent_witness :
    addAll 50 [3, 1, 2] = addAll 50 [1, 2, 3] :=
  registry_order_independent 50 [3, 1, 2] [1, 2, 3] (by decide)

theorem pushAll_drop (c : ℕ) (hc : 1 ≤ c) :
    ∀ (vs w : List ℚ), w.length ≤ c →
      pushAll c w vs = (w ++ vs).drop (w.length + vs.length - c) := by
  intro vs
  induction vs with
  | nil =>
    intro w hw
    simp [pushAll, Nat.sub_eq_zero_of_le hw]
  | cons v t ih =>
    intro w hw
    show pushAll c (push c w v) t = _
    unfold push
    by_cases hlen : c ≤ w.length
    · have hwc : w.length = c := le_antisymm hw hlen
      cases w with
      | nil => simp at hwc; omega
      | cons x xs =>
        have hxs : (xs ++ [v]).length ≤ c := by
          simp at hwc ⊢
          omega
        rw [if_pos hlen]
        show pushAll c (xs ++ [v]) t = _
        rw [ih (xs ++ [v]) hxs]
        have hlists : (xs ++ [v]) ++ t = xs ++ v :: t := by
          simp
        have hamount : (xs ++ [v]).length + t.length - c = t.length := by
          simp at hwc ⊢
          omega
        have hamount2 : (x :: xs).length + (v :: t).length - c = t.length + 1 := by
          simp at hwc ⊢
          omega
        rw [hlists, hamount, hamount2]
        rw [List.cons_append, List.drop_succ_cons]
    · rw [if_neg hlen]
      have hlt : w.length < c := lt_of_not_le hlen
      have hwv : (w ++ [v]).length ≤ c := by
        simp
        omega
      show pushAll c (w ++ [v]) t = _
      rw [ih (w ++ [v]) hwv]
      have hlists : (w ++ [v]) ++ t = w ++ v :: t := by
        simp
      have hamount : (w ++ [v]).length + t.length = w.length + (v :: t).length := by
        simp
        omega
      rw [hlists, hamount]

/-- C3: starting from an empty window with capacity `c ≥ 1`, pushing
`k > c` values leaves exactly the most recent `c` values in order:
the window equals the final `c`-suffix of the input, so position `0`
holds the `(k-c+1)`-st pushed value and position `c-1` holds the last. -/
theorem window_fifo (c : ℕ) (vs : List ℚ) (hc : 1 ≤ c) (hk : c < vs.length) :
    pushAll c [] vs = vs.drop (vs.length - c) ∧
    (pushAll c [] vs).length = c ∧
    (pushAll c [] vs)[0]? = vs[vs.length - c]? ∧
    (pushAll c [] vs)[c - 1]? = vs[vs.length - 1]? := by
  have h1 : pushAll c [] vs = vs.drop (vs.length - c) := by
    have h := pushAll_drop c hc vs [] (by simp)
    simpa using h
  refine ⟨h1, ?_, ?_, ?_⟩
  · rw [h1, List.length_drop]
    omega
  · rw [h1, List.getElem?_drop]
    congr 1
  · rw [h1, List.getElem?_drop]
    congr 1
    omega

/-- Witness for C3 with capacity 2 and pushed values `1, 2, 3`. -/
theorem window_fifo_witness :
    pushAll 2 [] [1, 2, 3] = ([1, 2, 3] : List ℚ).drop 1 ∧
    (pushAll 2 [] [1, 2, 3]).length = 2 ∧
    (pushAll 2 [] [1, 2, 3])[0]? = ([1, 2, 3] : List ℚ)[1]? ∧
    (pushAll 2 [] [1, 2, 3])[1]? = ([1, 2, 3] : List ℚ)[2]? :=
  window_fifo 2 [1, 2, 3] (by decide) (by decide)

theorem hitAt_eq_false_of_zero (sample_data : List Band) (stream : List ℚ)
    (i : ℕ) (h : stream[i]? = some 0) :
    hitAt sample_data stream i = false := by
  unfold hitAt
  rw [h]
  cases sample_data[i]? with
  | none => rfl
  | some b => simp

/-- The registry scalars after adding a single chunk count `n`. -/
theorem addAll_single (margin : ℚ) (n : ℕ) :
    addAll margin [n] = canonState margin n := by
  rw [addAll_eq_canon]
  simp

/-- C10: a live chunk whose energy value is exactly 0 is never counted
as a hit, whatever the corresponding band is (in particular even when
the band contains 0): the truthiness guard skips the comparison before
the band containment test. -/
theorem zero_stream_value_never_hits (sample_data : List Band) (stream : List ℚ)
    (i : ℕ) (h : stream[i]? = some 0) :
    hitAt sample_data stream i = false :=
  hitAt_eq_false_of_zero sample_data stream i h

/-- Witness for C10: a zero-center band (`lower = center = upper = 0`)
does contain the value 0, yet a zero-valued window entry scores no hit. -/
theorem zero_stream_value_never_hits_witness :
    (mkBand 0 0).mns ≤ 0 ∧ (0 : ℚ) ≤ (mkBand 0 0).pls ∧
    hitAt [mkBand 0 0] [0] 0 = false :=
  ⟨by norm_num [mkBand], by norm_num [mkBand],
    zero_stream_value_never_hits [mkBand 0 0] [0] 0 rfl⟩

/-- C8: a reference pattern whose chunk centers are all strictly
positive, compared (as the first registered pattern, with registry
capacity equal to its chunk count) against a fully-saturated all-zero
window, scores zero hits and a `false` verdict whenever the margin is
below 100. -/
theorem silence_never_matches (margin : ℚ) (cs : List ℚ) (rest : List (List Band))
    (hne : cs ≠ []) (hm : margin < 100) (hpos : ∀ c ∈ cs, 0 < c) :
    chunk_match_hits (cs.map (mkBand margin)) (List.replicate cs.length 0) = 0 ∧
    compare_data ((cs.map (mkBand margin)) :: rest) (addAll margin [cs.length])
      (List.replicate cs.length 0) = some false := by
  have hhits : chunk_match_hits (cs.map (mkBand margin))
      (List.replicate cs.length (0 : ℚ)) = 0 := by
    unfold chunk_match_hits
    rw [List.countP_eq_zero]
    intro i hi
    rw [List.mem_range, List.length_replicate] at hi
    have hz : (List.replicate cs.length (0 : ℚ))[i]? = some 0 :=
      List.getElem?_replicate_of_lt hi
    simp [hitAt_eq_false_of_zero _ _ _ hz]
  have hn1 : (1 : ℚ) ≤ (cs.length : ℚ) := by
    have := List.length_pos.mpr hne
    exact_mod_cast this
  refine ⟨hhits, ?_⟩
  simp only [compare_data, addAll_single, canonState, hhits, Nat.cast_zero]
  rw [if_neg]
  rintro ⟨h1, -⟩
  have hp : 0 < (cs.length : ℚ) * (100 - margin) :=
    mul_pos (by linarith) (by linarith)
  nlinarith

/-- Witness for C8 with margin 50 and a one-chunk pattern of energy 1. -/
theorem silence_never_matches_witness :
    chunk_match_hits (([1] : List ℚ).map (mkBand 50))
      (List.replicate ([1] : List ℚ).length 0) = 0 ∧
    compare_data ((([1] : List ℚ).map (mkBand 50)) :: []) (addAll 50 [([1] : List ℚ).length])
      (List.replicate ([1] : List ℚ).length 0) = some false :=
  silence_never_matches 50 [1] [] (by simp) (by norm_num)
    (by intro c hc; rw [List.mem_singleton] at hc; rw [hc]; norm_num)

/-- C7 (amended): replaying the exact per-chunk energies of a loaded
reference pattern whose chunk count equals the window capacity yields
`hits = chunk_count` and a `true` verdict for every margin ≥ 0,
provided every chunk center is strictly positive (a zero-energy chunk
is skipped by the truthiness guard and breaks the property). -/
theorem exact_replay_matches (margin : ℚ) (cs : List ℚ) (hm : 0 ≤ margin)
    (hpos : ∀ c ∈ cs, 0 < c) :
    chunk_match_hits (cs.map (mkBand margin)) cs = cs.length ∧
    compare_data [cs.map (mkBand margin)] (addAll margin [cs.length]) cs = some true := by
  have hhits : chunk_match_hits (cs.map (mkBand margin)) cs = cs.length := by
    unfold chunk_match_hits
    have hall : ∀ i ∈ List.range cs.length,
        hitAt (cs.map (mkBand margin)) cs i = true := by
      intro i hi
      rw [List.mem_range] at hi
      have hcs : cs[i]? = some cs[i] := List.getElem?_eq_getElem hi
      have hbands : (cs.map (mkBand margin))[i]? = some (mkBand margin cs[i]) := by
        rw [List.getElem?_map, hcs]
        rfl
      have hv : 0 < cs[i] := hpos _ (List.getElem_mem hi)
      have h5 : 0 ≤ cs[i] * margin / 100 := by positivity
      unfold hitAt
      rw [hbands, hcs]
      refine decide_eq_true ?_
      refine ⟨ne_of_gt hv, ?_, ?_⟩ <;> simp only [mkBand] <;> linarith
    calc (List.range cs.length).countP (fun i => hitAt (cs.map (mkBand margin)) cs i)
        = (List.range cs.length).length := List.countP_eq_length.mpr hall
      _ = cs.length := List.length_range cs.length
  have h5 : 0 ≤ (cs.length : ℚ) * margin / 100 := by positivity
  refine ⟨hhits, ?_⟩
  simp only [compare_data, addAll_single, canonState, hhits]
  rw [if_pos]
  exact ⟨by linarith, by linarith⟩

/-- Witness for C7 (amended) with margin 5 and pattern energies `[1, 2]`. -/
theorem exact_replay_matches_witness :
    chunk_match_hits (([1, 2] : List ℚ).map (mkBand 5)) [1, 2] = ([1, 2] : List ℚ).length ∧
    compare_data [([1, 2] : List ℚ).map (mkBand 5)] (addAll 5 [([1, 2] : List ℚ).length])
      [1, 2] = some true :=
  exact_replay_matches 5 [1, 2] (by norm_num)
    (by intro c hc; rcases List.mem_cons.mp hc with h | h
        · rw [h]; norm_num
        · rw [List.mem_singleton] at h; rw [h]; norm_num)

theorem splitSizes_length (L n : ℕ) (hn : 1 ≤ n) : (splitSizes L n).length = n := by
  unfold splitSizes
  rw [List.length_append, List.length_replicate, List.length_replicate]
  have := Nat.mod_lt L (show 0 < n by omega)
  omega

theorem splitSizes_sum (L n : ℕ) (hn : 1 ≤ n) : (splitSizes L n).sum = L := by
  unfold splitSizes
  rw [List.sum_append, List.sum_const_nat, List.sum_const_nat]
  have hmod : L % n < n := Nat.mod_lt L (by omega)
  have hdm := Nat.div_add_mod L n
  set a := L % n with ha
  set q := L / n with hq
  have hsub : (n - a) * q = n * q - a * q := Nat.sub_mul n a q
  have hle : a * q ≤ n * q := Nat.mul_le_mul_right q (le_of_lt hmod)
  rw [hsub, Nat.mul_succ]
  set x := a * q
  set y := n * q
  omega

theorem splitSizes_mem (L n s : ℕ) (hs : s ∈ splitSizes L n) :
    s = L / n ∨ s = L / n + 1 := by
  unfold splitSizes at hs
  rcases List.mem_append.mp hs with h | h
  · right
    exact (List.mem_replicate.mp h).2
  · left
    exact (List.mem_replicate.mp h).2

theorem splitBySizes_length (sizes : List ℕ) :
    ∀ xs : List ℚ, (splitBySizes xs sizes).length = sizes.length := by
  induction sizes with
  | nil => intro xs; rfl
  | cons s rest ih =>
    intro xs
    simp only [splitBySizes, List.length_cons, ih]

theorem splitBySizes_map_length (sizes : List ℕ) :
    ∀ xs : List ℚ, sizes.sum ≤ xs.length →
      (splitBySizes xs sizes).map List.length = sizes := by
  induction sizes with
  | nil => intro xs _; rfl
  | cons s rest ih =>
    intro xs h
    rw [List.sum_cons] at h
    have hrest : rest.sum ≤ (xs.drop s).length := by
      rw [List.length_drop]
      omega
    simp only [splitBySizes, List.map_cons, List.length_take]
    rw [ih (xs.drop s) hrest]
    congr 1
    omega

theorem splitBySizes_flatten (sizes : List ℕ) :
    ∀ xs : List ℚ, (splitBySizes xs sizes).flatten = xs.take sizes.sum := by
  induction sizes with
  | nil => intro xs; rfl
  | cons s rest ih =>
    intro xs
    simp only [splitBySizes, List.flatten_cons, List.sum_cons]
    rw [ih (xs.drop s), List.take_add]

/-- C4: for a sample sequence of length `L` and chunk count
`1 ≤ n ≤ L`, `array_split` produces exactly `n` contiguous pieces whose
lengths sum to `L` and pairwise differ by at most 1, and the produced
chunk energies are exactly the sums of absolute sample amplitudes of
the pieces. -/
theorem chunker_exact (xs : List ℚ) (n : ℕ) (h1 : 1 ≤ n) (h2 : n ≤ xs.length) :
    (array_split xs n).length = n ∧
    ((array_split xs n).map List.length).sum = xs.length ∧
    (array_split xs n).flatten = xs ∧
    (∀ c1 ∈ array_split xs n, ∀ c2 ∈ array_split xs n, c1.length ≤ c2.length + 1) ∧
    chunk_energies xs n = (array_split xs n).map (fun c => (c.map (fun x => |x|)).sum) := by
  have hsum : (splitSizes xs.length n).sum = xs.length := splitSizes_sum xs.length n h1
  have hmaplen : (array_split xs n).map List.length = splitSizes xs.length n := by
    unfold array_split
    exact splitBySizes_map_length _ xs (le_of_eq hsum)
  refine ⟨?_, ?_, ?_, ?_, rfl⟩
  · unfold array_split
    rw [splitBySizes_length]
    exact splitSizes_length xs.length n h1
  · rw [hmaplen, hsum]
  · unfold array_split
    rw [splitBySizes_flatten, hsum, List.take_length]
  · intro c1 hc1 c2 hc2
    have m1 : c1.length ∈ splitSizes xs.length n := by
      rw [← hmaplen]
      exact List.mem_map_of_mem List.length hc1
    have m2 : c2.length ∈ splitSizes xs.length n := by
      rw [← hmaplen]
      exact List.mem_map_of_mem List.length hc2
    rcases splitSizes_mem _ _ _ m1 with e1 | e1 <;>
      rcases splitSizes_mem _ _ _ m2 with e2 | e2 <;> omega

/-- Witness for C4 with samples `[1, 2, 3]` and chunk count 2. -/
theorem chunker_exact_witness :
    (array_split [1, 2, 3] 2).length = 2 ∧
    ((array_split [1, 2, 3] 2).map List.length).sum = ([1, 2, 3] : List ℚ).length ∧
    (array_split [1, 2, 3] 2).flatten = [1, 2, 3] ∧
    (∀ c1 ∈ array_split [1, 2, 3] 2, ∀ c2 ∈ array_split [1, 2, 3] 2,
      c1.length ≤ c2.length + 1) ∧
    chunk_energies [1, 2, 3] 2
      = (array_split ([1, 2, 3] : List ℚ) 2).map (fun c => (c.map (fun x => |x|)).sum) :=
  chunker_exact [1, 2, 3] 2 (by decide) (by decide)

/-- C7 counterexample: a reference built from one silent block
(`convert_samples` with margin 0, buffer size 1, data `[0]`) has one
chunk of center 0, a window capacity of 1, and — replaying exactly its
per-chunk energies `[0]` — scores 0 hits (not `chunk_count = 1`) and a
`false` verdict, refuting the claim as stated. -/
theorem exact_replay_cex :
    (convert_samples 0 1 [[0]]).1 = [[mkBand 0 0]] ∧
    (convert_samples 0 1 [[0]]).2.max_chunks = 1 ∧
    chunk_match_hits [mkBand 0 0] [0] = 0 ∧
    compare_data (convert_samples 0 1 [[0]]).1 (convert_samples 0 1 [[0]]).2 [0]
      = some false := by
  norm_num [convert_samples, chunk_energies, array_split, splitSizes, splitBySizes,
    chunk_sum, mkBand, addChunkCount, RegState.start, chunk_match_hits, hitAt,
    compare_data, List.range_succ, List.countP_cons, List.countP_nil]

end SVAD
